import Mathlib

/-!
Shallow embedding of src/main.py, a directory indexing and duplicate-file
reporting tool.  Python strings are modelled as lists of characters
(`Str`).  Python floats are modelled as exact rationals together with an
explicit IEEE-754 rounding step `floatRound` (round to nearest, 53-bit
significand, ties to even): each division of the `human_readable_size`
loop is `pyDiv1024 q = floatRound (q / 1024)`, because Python's true
division returns the correctly rounded double of the exact quotient.
Dividing a double by 1024 is exact, so after the first (genuinely
rounding) division the later `floatRound`s are provably the identity —
that exactness is a theorem here (`floatRound_eq_dyadic`), not an
assumption, and the model reproduces the program's behaviour also for
sizes at and beyond 2^53, e.g. 19*2^49-1, which encodes to "10P" and not
to the "9P" an exact-rational pipeline would give.  Exceptions are
modelled by `Option` (`none` = the operation raised).  The OS calls
`hash_file` relies on (`open`/`read`) and `os.path.getsize` are modelled
as oracle functions supplied in an `FSEnv`; the tree handed to `os.walk`
is an `FSTree`, and the walk itself is embedded as the recursion of
`walkTree`, which visits a directory's files before descending, exactly
in the order `index_directory`'s loop consumes `os.walk`'s output.  The
sqlite store is append-only in the source (`INSERT` only), so it is
modelled as the list of inserted records in insertion order; the grouping
query of `find_duplicates` is modelled with groups keyed in
first-occurrence order and group members in insertion (rowid) order,
matching the scan order of the hash index the source creates.
-/

abbrev Str := List Char

/-- Decimal digit character, '0'..'9', for d ≤ 9 (models str formatting of
a digit). -/
def digChar : Nat → Char
  | 0 => '0' | 1 => '1' | 2 => '2' | 3 => '3' | 4 => '4'
  | 5 => '5' | 6 => '6' | 7 => '7' | 8 => '8' | _ => '9'

/-- Decimal digit string of a natural number (models str(n) / integer
formatting). -/
def natDigits (n : Nat) : Str :=
  if h : n < 10 then [digChar n]
  else natDigits (n / 10) ++ [digChar (n % 10)]
decreasing_by exact Nat.div_lt_self (by omega) (by omega)

/-- Numeric value of a list of decimal digit characters. -/
def digitsVal (cs : Str) : Nat :=
  cs.foldl (fun a c => 10 * a + (c.toNat - 48)) 0

/-- Rounding to the nearest integer with ties to even: the rounding the
Python format specifier .0f applies (IEEE round-half-even on values that
are exactly representable). -/
def roundHalfEven (q : ℚ) : ℤ :=
  let f : ℤ := ⌊q⌋
  if q - f < 1/2 then f
  else if 1/2 < q - f then f + 1
  else if f % 2 = 0 then f else f + 1

/-- Rounding of a rational q with 1 ≤ q to the nearest IEEE-754 double:
the significand q / 2^e is scaled into [2^52, 2^53) using
e = floor(log2 q) - 52 and rounded to an integer, ties to even.  Doubles
of this magnitude are normal, and the encoder only rounds quotients ≥ 1
(its loop divides only values ≥ 1024), far below the overflow threshold
2^1024, so neither subnormals nor infinities arise; rationals below 1 are
returned unchanged, which is exact on the dyadics that can actually reach
a float here. -/
def floatRound (q : ℚ) : ℚ :=
  if 1 ≤ q then
    ((roundHalfEven (q / (2 : ℚ) ^ ((Nat.log 2 ⌊q⌋.toNat : ℤ) - 52)) : ℤ) : ℚ) *
      (2 : ℚ) ^ ((Nat.log 2 ⌊q⌋.toNat : ℤ) - 52)
  else q

/-- Python's true division by 1024 as performed in the encoder loop
(size_bytes /= 1024): the exact quotient, correctly rounded to a
double. -/
def pyDiv1024 (q : ℚ) : ℚ :=
  floatRound (q / 1024)

/-- Loop body of human_readable_size: try each unit in order, dividing by
1024 (with float rounding) until the value drops below 1024; after 'T'
the unit 'P' is used with no further test. -/
def hrsAux : List Char → ℚ → Str
  | [], q => natDigits (roundHalfEven q).toNat ++ ['P']
  | u :: us, q =>
    if q < 1024 then natDigits (roundHalfEven q).toNat ++ [u]
    else hrsAux us (pyDiv1024 q)

/-- Embedding of human_readable_size (src/main.py lines 48-53). -/
def human_readable_size (n : Nat) : Str :=
  hrsAux ['B', 'K', 'M', 'G', 'T'] n

/-- Unit table of size_to_bytes (src/main.py line 105). -/
def unitVal : Char → Option ℤ
  | 'B' => some 1
  | 'K' => some 1024
  | 'M' => some (1024 ^ 2)
  | 'G' => some (1024 ^ 3)
  | 'T' => some (1024 ^ 4)
  | 'P' => some (1024 ^ 5)
  | _ => none

/-- Unsigned decimal literal, as accepted by Python float(): digits, or
digits '.' digits with at least one digit present. -/
def parseUnsignedFloat (cs : Str) : Option ℚ :=
  let ip := cs.takeWhile Char.isDigit
  let rest := cs.drop ip.length
  if rest = [] then
    if ip = [] then none else some (digitsVal ip)
  else if rest.head? = some '.' then
    let fp := rest.tail
    if fp.all Char.isDigit ∧ (ip ≠ [] ∨ fp ≠ []) then
      some ((digitsVal ip : ℚ) + (digitsVal fp : ℚ) / (10 : ℚ) ^ fp.length)
    else none
  else none

/-- Python float(s) on the decimal literals reachable here; none models a
raised ValueError. -/
def parseFloat (cs : Str) : Option ℚ :=
  if cs.head? = some '-' then (parseUnsignedFloat cs.tail).map (fun q => -q)
  else if cs.head? = some '+' then parseUnsignedFloat cs.tail
  else parseUnsignedFloat cs

/-- Python int(s) on a string: an optionally signed run of digits. -/
def parseInt (cs : Str) : Option ℤ :=
  if cs.head? = some '-' then
    (parseUnsignedFloat cs.tail).bind fun q =>
      if q.den = 1 then some (-q.num) else none
  else if cs.head? = some '+' then
    (parseUnsignedFloat cs.tail).bind fun q => if q.den = 1 then some q.num else none
  else
    (parseUnsignedFloat cs).bind fun q => if q.den = 1 then some q.num else none

/-- Python int(x) on a float value: truncation toward zero. -/
def intTrunc (q : ℚ) : ℤ :=
  if 0 ≤ q then ⌊q⌋ else -⌊-q⌋

/-- Embedding of size_to_bytes (src/main.py lines 103-108): uppercase the
string, and if the last character is in the unit table multiply the float
value of the rest by the unit, else parse the whole string as an integer.
Indexing s[-1] of an empty string raises, modelled by none. -/
def size_to_bytes (s : Str) : Option ℤ :=
  let u := s.map Char.toUpper
  match u.getLast? with
  | none => none
  | some c =>
    match unitVal c with
    | some m => (parseFloat u.dropLast).map fun q => intTrunc (q * (m : ℚ))
    | none => parseInt u

/-- SQLite CAST(text AS FLOAT): numeric value of the longest numeric
prefix of the text, 0.0 when there is none. -/
def castFloatCore (cs : Str) : ℚ :=
  let ip := cs.takeWhile Char.isDigit
  let rest := cs.drop ip.length
  match rest with
  | '.' :: rest2 => (digitsVal ip : ℚ) + (digitsVal (rest2.takeWhile Char.isDigit) : ℚ) /
      (10 : ℚ) ^ (rest2.takeWhile Char.isDigit).length
  | _ => (digitsVal ip : ℚ)

/-- SQLite CAST(text AS FLOAT) including a leading sign. -/
def castFloat (cs : Str) : ℚ :=
  if cs.head? = some '-' then -castFloatCore cs.tail
  else if cs.head? = some '+' then castFloatCore cs.tail
  else castFloatCore cs

/-- CASE SUBSTR(size,-1) WHEN 'B' ... ELSE 1 END of the find_duplicates
query (src/main.py lines 118-126). -/
def sqlUnitCase : Char → ℤ
  | 'B' => 1
  | 'K' => 1024
  | 'M' => 1048576
  | 'G' => 1073741824
  | 'T' => 1099511627776
  | 'P' => 1125899906842624
  | _ => 1

/-- Per-record size expression of the find_duplicates query:
CAST(REPLACE(size, SUBSTR(size,-1), '') AS FLOAT) * CASE SUBSTR(size,-1) ...
Note REPLACE removes every occurrence of the last character, modelled by
List.filter. -/
def sqlSizeVal (s : Str) : ℚ :=
  match s.getLast? with
  | none => 0
  | some c => castFloat (s.filter fun x => x != c) * (sqlUnitCase c : ℚ)

/-- A row of the files table: path, hash and encoded size, as inserted by
index_directory (synthetic id left implicit: the store is append-only and
is modelled as the list of rows in insertion order). -/
structure FileRecord where
  path : Str
  hash : Str
  size : Str
deriving DecidableEq

/-- Distinct hashes of a record list, keyed in first-occurrence order (the
grouping keys of GROUP BY hash). -/
def hashKeys : List FileRecord → List Str
  | [] => []
  | r :: rs => r.hash :: (hashKeys rs).filter (fun h => h != r.hash)

/-- SELECT hash, GROUP_CONCAT(path) ... GROUP BY hash HAVING COUNT(*) > 1
over a list of rows: one group per hash having at least two rows, members
in insertion order. -/
def groupByHash (rs : List FileRecord) : List (Str × List Str) :=
  ((hashKeys rs).map fun h =>
      (h, (rs.filter fun r => r.hash == h).map FileRecord.path)).filter
    fun g => decide (1 < g.2.length)

/-- Embedding of find_duplicates (src/main.py lines 111-137): when
min_size is truthy (not None and not 0) rows are first restricted to
those whose computed size value is at least min_size, then grouped by
hash keeping groups of more than one (remaining) row. -/
def find_duplicates (records : List FileRecord) (min_size : Option ℤ) :
    List (Str × List Str) :=
  match min_size with
  | some m =>
    if m ≠ 0 then
      groupByHash (records.filter fun r => decide ((m : ℚ) ≤ sqlSizeVal r.size))
    else groupByHash records
  | none => groupByHash records

/-- The three filter sets loaded from configuration (Python sets of
strings, modelled as lists; only membership and emptiness are used). -/
structure Filters where
  skip_types : List Str
  exclude_dirs : List Str
  include_files : List Str

/-- Oracles for the OS calls of the indexer: hash_file's result (none when
reading raised and the function returned None after printing the error)
and os.path.getsize (none when it raised). -/
structure FSEnv where
  hashF : Str → Option Str
  sizeF : Str → Option Nat

/-- os.path.join(root, name) for a relative name. -/
def joinPath (root name : Str) : Str :=
  if root = [] then name
  else if root.getLast? = some '/' then root ++ name
  else root ++ '/' :: name

/-- Python substring containment: sub in s. -/
def containsSubstr (s sub : Str) : Bool :=
  decide (sub <:+: s)

/-- Body of the inner file loop of index_directory (src/main.py lines
82-96) for one file of a directory root: the include_files allowlist
check, the skip_types suffix check, hashing, size with the "0B" fallback,
and the insert guarded by the truthiness of the hash. Returns the record
inserted, if any. -/
def processFile (F : Filters) (env : FSEnv) (root file : Str) :
    Option FileRecord :=
  let file_path := joinPath root file
  if F.include_files ≠ [] ∧ file_path ∉ F.include_files then none
  else if F.skip_types.any (fun ext => decide (ext <:+ file)) then none
  else
    let size_hr : Str := match env.sizeF file_path with
      | some n => human_readable_size n
      | none => ['0', 'B']
    match env.hashF file_path with
    | none => none
    | some h => if h = [] then none else some ⟨file_path, h, size_hr⟩

/-- The file loop of index_directory over one directory's file list,
threading the accumulated inserted rows and the running file_count. -/
def processFiles (F : Filters) (env : FSEnv) (root : Str)
    (files : List Str) (acc : List FileRecord × Nat) :
    List FileRecord × Nat :=
  files.foldl
    (fun a file =>
      match processFile F env root file with
      | some r => (a.1 ++ [r], a.2 + 1)
      | none => a)
    acc

mutual
/-- A directory's contents: its file names and its named subdirectories. -/
inductive FSTree : Type where
  | node (files : List Str) (subdirs : FSForest) : FSTree
/-- An ordered list of named subdirectories. -/
inductive FSForest : Type where
  | nil : FSForest
  | cons (name : Str) (tree : FSTree) (rest : FSForest) : FSForest
end

mutual
/-- os.walk(base_dir) as consumed by index_directory: visit a directory
(skipping its files when any exclude_dirs entry is a substring of its
path), then its subdirectories in order. -/
def walkTree (F : Filters) (env : FSEnv) :
    Str → FSTree → List FileRecord × Nat → List FileRecord × Nat
  | root, .node files subdirs, acc =>
    walkForest F env root subdirs
      (if F.exclude_dirs.any (fun excl => containsSubstr root excl) then acc
       else processFiles F env root files acc)
/-- Walk each subdirectory of a directory in order. -/
def walkForest (F : Filters) (env : FSEnv) :
    Str → FSForest → List FileRecord × Nat → List FileRecord × Nat
  | _root, .nil, acc => acc
  | root, .cons name t rest, acc =>
    walkForest F env root rest (walkTree F env (joinPath root name) t acc)
end

/-- Outcome of one index_directory run: the rows inserted, the final
file_count, and the Python return value — the source function ends
without a return statement, so it returns None (src/main.py lines
74-100). -/
structure IndexRun where
  inserted : List FileRecord
  file_count : Nat
  ret : Option Nat

/-- Embedding of index_directory (src/main.py lines 74-100). -/
def index_directory (F : Filters) (env : FSEnv) (base : Str) (t : FSTree) :
    IndexRun :=
  let res := walkTree F env base t ([], 0)
  { inserted := res.1, file_count := res.2, ret := none }

/-! Digit-string lemmas. -/

theorem digChar_cases (d : Nat) (hd : d ≤ 9) :
    digChar d = '0' ∨ digChar d = '1' ∨ digChar d = '2' ∨ digChar d = '3' ∨
    digChar d = '4' ∨ digChar d = '5' ∨ digChar d = '6' ∨ digChar d = '7' ∨
    digChar d = '8' ∨ digChar d = '9' := by
  interval_cases d <;> simp [digChar]

theorem digChar_isDigit (d : Nat) (hd : d ≤ 9) : (digChar d).isDigit = true := by
  interval_cases d <;> decide

theorem digChar_toUpper (d : Nat) (hd : d ≤ 9) : (digChar d).toUpper = digChar d := by
  interval_cases d <;> decide

theorem digChar_toNat (d : Nat) (hd : d ≤ 9) : (digChar d).toNat = 48 + d := by
  interval_cases d <;> decide

theorem natDigits_ne_nil (n : Nat) : natDigits n ≠ [] := by
  unfold natDigits
  split <;> simp

theorem natDigits_mem (n : Nat) : ∀ c ∈ natDigits n, ∃ d, d ≤ 9 ∧ c = digChar d := by
  induction n using natDigits.induct with
  | case1 n h =>
    intro c hc
    rw [natDigits, dif_pos h] at hc
    simp only [List.mem_singleton] at hc
    exact ⟨n, by omega, hc⟩
  | case2 n h ih =>
    intro c hc
    rw [natDigits, dif_neg h] at hc
    rcases List.mem_append.mp hc with h1 | h2
    · exact ih c h1
    · simp only [List.mem_singleton] at h2
      exact ⟨n % 10, by omega, h2⟩

theorem natDigits_isDigit (n : Nat) : ∀ c ∈ natDigits n, c.isDigit = true := by
  intro c hc
  obtain ⟨d, hd, rfl⟩ := natDigits_mem n c hc
  exact digChar_isDigit d hd

theorem natDigits_map_toUpper (n : Nat) :
    (natDigits n).map Char.toUpper = natDigits n := by
  conv_rhs => rw [← List.map_id (natDigits n)]
  refine List.map_congr_left ?_
  intro c hc
  obtain ⟨d, hd, rfl⟩ := natDigits_mem n c hc
  exact digChar_toUpper d hd

theorem digitsVal_append (xs : Str) (c : Char) :
    digitsVal (xs ++ [c]) = 10 * digitsVal xs + (c.toNat - 48) := by
  simp [digitsVal, List.foldl_append]

theorem digitsVal_natDigits (n : Nat) : digitsVal (natDigits n) = n := by
  induction n using natDigits.induct with
  | case1 n h =>
    rw [natDigits, dif_pos h]
    simp only [digitsVal, List.foldl_cons, List.foldl_nil]
    rw [digChar_toNat n (by omega)]
    omega
  | case2 n h ih =>
    rw [natDigits, dif_neg h, digitsVal_append, ih,
      digChar_toNat (n % 10) (by omega)]
    omega

theorem isDigit_ne_dash {c : Char} (h : c.isDigit = true) : c ≠ '-' := by
  intro he
  subst he
  exact absurd h (by decide)

theorem isDigit_ne_plus {c : Char} (h : c.isDigit = true) : c ≠ '+' := by
  intro he
  subst he
  exact absurd h (by decide)

theorem isDigit_ne_dot {c : Char} (h : c.isDigit = true) : c ≠ '.' := by
  intro he
  subst he
  exact absurd h (by decide)

/-! Parsing lemmas: a nonempty all-digit string parses to its digit value. -/

theorem parseUnsignedFloat_digits (cs : Str) (hne : cs ≠ [])
    (hdig : ∀ c ∈ cs, c.isDigit = true) :
    parseUnsignedFloat cs = some ((digitsVal cs : ℚ)) := by
  have htw : cs.takeWhile Char.isDigit = cs := List.takeWhile_eq_self_iff.mpr hdig
  simp only [parseUnsignedFloat, htw, List.drop_length]
  simp [hne]

theorem parseFloat_digits (cs : Str) (hne : cs ≠ [])
    (hdig : ∀ c ∈ cs, c.isDigit = true) :
    parseFloat cs = some ((digitsVal cs : ℚ)) := by
  obtain ⟨c, cs', rfl⟩ := List.exists_cons_of_ne_nil hne
  have hc : c.isDigit = true := hdig c (by simp)
  rw [parseFloat, if_neg, if_neg]
  · exact parseUnsignedFloat_digits _ hne hdig
  · simp only [List.head?_cons, Option.some.injEq]
    exact isDigit_ne_plus hc
  · simp only [List.head?_cons, Option.some.injEq]
    exact isDigit_ne_dash hc

/-! Rounding lemmas. -/

theorem roundHalfEven_nonneg (q : ℚ) (h : 0 ≤ q) : 0 ≤ roundHalfEven q := by
  have hf : (0 : ℤ) ≤ ⌊q⌋ := Int.floor_nonneg.mpr h
  simp only [roundHalfEven]
  split
  · exact hf
  · split
    · omega
    · split <;> omega

theorem roundHalfEven_abs_le (q : ℚ) : |(roundHalfEven q : ℚ) - q| ≤ 1 / 2 := by
  have h0 : (0 : ℚ) ≤ q - ⌊q⌋ := by
    have := Int.floor_le q; linarith
  have h1 : q - ⌊q⌋ < 1 := by
    have := Int.lt_floor_add_one q; linarith
  simp only [roundHalfEven]
  split
  · rename_i hc1
    rw [abs_sub_comm, abs_of_nonneg h0]; linarith
  · rename_i hc1
    push_neg at hc1
    split
    · rename_i hc2
      push_cast
      rw [abs_of_nonneg (by linarith)]
      linarith
    · rename_i hc2
      push_neg at hc2
      have heq : q - (⌊q⌋ : ℚ) = 1 / 2 := le_antisymm hc2 hc1
      split
      · rw [abs_sub_comm, abs_of_nonneg h0]
        linarith
      · push_cast
        rw [abs_of_nonneg (by linarith)]
        linarith

theorem intTrunc_intCast (m : ℤ) : intTrunc ((m : ℚ)) = m := by
  unfold intTrunc
  split
  · exact Int.floor_intCast m
  · rw [← Int.cast_neg, Int.floor_intCast]
    omega

theorem roundHalfEven_intCast (m : ℤ) : roundHalfEven ((m : ℚ)) = m := by
  simp only [roundHalfEven, Int.floor_intCast]
  norm_num

theorem parseInt_digits (cs : Str) (hne : cs ≠ [])
    (hdig : ∀ c ∈ cs, c.isDigit = true) :
    parseInt cs = some ((digitsVal cs : ℤ)) := by
  obtain ⟨c, cs', rfl⟩ := List.exists_cons_of_ne_nil hne
  have hc : c.isDigit = true := hdig c (by simp)
  rw [parseInt, if_neg, if_neg]
  · rw [parseUnsignedFloat_digits _ hne hdig]
    simp
  · simp only [List.head?_cons, Option.some.injEq]
    exact isDigit_ne_plus hc
  · simp only [List.head?_cons, Option.some.injEq]
    exact isDigit_ne_dash hc

/-! Characterization of the encoder's unit selection. -/

/-- Unit letter selected after k divisions by 1024 (k ≤ 5). -/
def unitChar (k : Nat) : Char :=
  (['B', 'K', 'M', 'G', 'T', 'P']).getD k 'P'

/-- Number of divisions by 1024 the encoder loop performs on input n. -/
def scaleExp (n : Nat) : Nat :=
  if n < 1024 then 0
  else if n < 1048576 then 1
  else if n < 1073741824 then 2
  else if n < 1099511627776 then 3
  else if n < 1125899906842624 then 4
  else 5

theorem scaleExp_le (n : Nat) : scaleExp n ≤ 5 := by
  unfold scaleExp
  repeat' split <;> norm_num

theorem scaleExp_lower (n : Nat) (h : scaleExp n ≠ 0) : 1024 ^ scaleExp n ≤ n := by
  unfold scaleExp at h ⊢
  split_ifs at h ⊢ <;> omega

theorem scaleExp_upper (n : Nat) (h : scaleExp n < 5) : n < 1024 ^ (scaleExp n + 1) := by
  unfold scaleExp at h ⊢
  split_ifs at h ⊢ <;> omega

theorem hrsAux_stop (u : Char) (us : List Char) (q : ℚ) (h : q < 1024) :
    hrsAux (u :: us) q = natDigits (roundHalfEven q).toNat ++ [u] := by
  simp [hrsAux, h]

theorem hrsAux_step (u : Char) (us : List Char) (q : ℚ) (h : ¬q < 1024) :
    hrsAux (u :: us) q = hrsAux us (pyDiv1024 q) := by
  simp [hrsAux, h]

theorem qdiv_not_lt (n j : Nat) (h : 1024 ^ (j + 1) ≤ n) :
    ¬((n : ℚ) / 1024 ^ j < 1024) := by
  rw [not_lt, le_div_iff₀ (by positivity)]
  calc (1024 : ℚ) * 1024 ^ j = 1024 ^ (j + 1) := by ring
  _ ≤ n := by exact_mod_cast h

theorem qdiv_lt (n k : Nat) (h : n < 1024 ^ (k + 1)) :
    (n : ℚ) / 1024 ^ k < 1024 := by
  rw [div_lt_iff₀ (by positivity)]
  calc (n : ℚ) < 1024 ^ (k + 1) := by exact_mod_cast h
  _ = 1024 * 1024 ^ k := by ring

theorem qdiv_succ (n j : Nat) :
    (n : ℚ) / 1024 ^ j / 1024 = (n : ℚ) / 1024 ^ (j + 1) := by
  rw [div_div, ← pow_succ]

/-! Properties of the float rounding step. -/

theorem roundHalfEven_ge_floor (q : ℚ) : ⌊q⌋ ≤ roundHalfEven q := by
  simp only [roundHalfEven]
  split
  · exact le_refl _
  · split
    · omega
    · split <;> omega

theorem roundHalfEven_le_floor_add_one (q : ℚ) : roundHalfEven q ≤ ⌊q⌋ + 1 := by
  simp only [roundHalfEven]
  split
  · omega
  · split
    · omega
    · split <;> omega

theorem floatRound_of_log (q : ℚ) (L : ℕ) (hq1 : 1 ≤ q)
    (hlog : Nat.log 2 ⌊q⌋.toNat = L) (hL : L ≤ 52) :
    floatRound q =
      ((roundHalfEven (q * 2 ^ (52 - L)) : ℤ) : ℚ) / 2 ^ (52 - L) := by
  rw [floatRound, if_pos hq1, hlog]
  have he : ((L : ℤ) - 52) = -(((52 - L : ℕ) : ℤ)) := by omega
  rw [he, zpow_neg, zpow_natCast, div_eq_mul_inv, inv_inv, ← div_eq_mul_inv]

theorem floatRound_eq_dyadic (a j : ℕ) (ha : a < 2 ^ 53) :
    floatRound ((a : ℚ) / 2 ^ j) = (a : ℚ) / 2 ^ j := by
  set q : ℚ := (a : ℚ) / 2 ^ j with hq
  by_cases hq1 : 1 ≤ q
  · have hfl1 : 1 ≤ ⌊q⌋ := Int.le_floor.mpr (by exact_mod_cast hq1)
    have hj : j ≤ 52 := by
      by_contra hc
      push_neg at hc
      have h2 : (a : ℚ) < 2 ^ j := by
        calc (a : ℚ) < 2 ^ 53 := by exact_mod_cast ha
        _ ≤ 2 ^ j := by exact pow_le_pow_right₀ (by norm_num) (by omega)
      have h3 : q < 1 := by
        rw [hq, div_lt_one (by positivity)]
        exact h2
      linarith
    set L := Nat.log 2 ⌊q⌋.toNat with hLdef
    have hLle : L + j ≤ 52 := by
      have h2 : (⌊q⌋ : ℚ) ≤ q := Int.floor_le q
      have h3 : q < 2 ^ (53 - j) := by
        rw [hq, div_lt_iff₀ (by positivity)]
        calc (a : ℚ) < 2 ^ 53 := by exact_mod_cast ha
        _ = 2 ^ (53 - j) * 2 ^ j := by rw [← pow_add]; congr 1; omega
      have h4 : ⌊q⌋ < ((2 ^ (53 - j) : ℕ) : ℤ) := by
        exact_mod_cast lt_of_le_of_lt h2 h3
      have h5 : ⌊q⌋.toNat < 2 ^ (53 - j) := by omega
      have h6 : L < 53 - j := Nat.log_lt_of_lt_pow (by omega) h5
      omega
    rw [floatRound_of_log q L hq1 rfl (by omega)]
    have hexp : (2 : ℚ) ^ (52 - L) = 2 ^ (52 - L - j) * 2 ^ j := by
      rw [← pow_add]
      congr 1
      omega
    have hx : q * 2 ^ (52 - L) = ((a * 2 ^ (52 - L - j) : ℕ) : ℚ) := by
      rw [hq, hexp]
      push_cast
      field_simp
      ring
    rw [hx]
    have hrn : roundHalfEven (((a * 2 ^ (52 - L - j) : ℕ) : ℚ))
        = ((a * 2 ^ (52 - L - j) : ℕ) : ℤ) := by
      have h7 := roundHalfEven_intCast (((a * 2 ^ (52 - L - j) : ℕ) : ℤ))
      rw [← h7]
      congr 1
    rw [hrn, hq]
    push_cast
    rw [div_eq_div_iff (by positivity) (by positivity)]
    have h8 : (2 : ℚ) ^ (52 - L - j) * 2 ^ j = 2 ^ (52 - L) := by
      rw [← pow_add]
      congr 1
      omega
    calc (a : ℚ) * 2 ^ (52 - L - j) * 2 ^ j = (a : ℚ) * (2 ^ (52 - L - j) * 2 ^ j) := by
          ring
    _ = (a : ℚ) * 2 ^ (52 - L) := by rw [h8]
  · rw [floatRound, if_neg hq1]

theorem pyDiv1024_exact (n j : ℕ) (h : n < 2 ^ 53) :
    pyDiv1024 ((n : ℚ) / 1024 ^ j) = (n : ℚ) / 1024 ^ (j + 1) := by
  rw [pyDiv1024, qdiv_succ]
  have h2 : (n : ℚ) / 1024 ^ (j + 1) = (n : ℚ) / 2 ^ (10 * (j + 1)) := by
    rw [show ((1024 : ℚ)) = 2 ^ 10 from by norm_num, ← pow_mul]
  rw [h2, floatRound_eq_dyadic n (10 * (j + 1)) h]

theorem pyDiv1024_exact0 (n : ℕ) (h : n < 2 ^ 53) :
    pyDiv1024 ((n : ℚ)) = (n : ℚ) / 1024 ^ 1 := by
  have h2 := pyDiv1024_exact n 0 h
  simpa using h2

theorem hrs_of_bounds (n k : Nat) (h53 : n < 2 ^ 53) (hk : k ≤ 5)
    (hlow : k ≠ 0 → 1024 ^ k ≤ n) (hhigh : k < 5 → n < 1024 ^ (k + 1)) :
    human_readable_size n =
      natDigits (roundHalfEven ((n : ℚ) / 1024 ^ k)).toNat ++ [unitChar k] := by
  interval_cases k
  · have st : (n : ℚ) < 1024 := by
      exact_mod_cast lt_of_lt_of_le (hhigh (by omega)) (by norm_num)
    unfold human_readable_size
    rw [hrsAux_stop _ _ _ st, pow_zero, div_one]
    rfl
  · have hl : 1024 ^ 1 ≤ n := hlow (by omega)
    have s0 : ¬((n : ℚ) < 1024) := by
      rw [not_lt]; exact_mod_cast le_trans (by norm_num) hl
    have st : (n : ℚ) / 1024 ^ 1 < 1024 := qdiv_lt n 1 (hhigh (by omega))
    unfold human_readable_size
    rw [hrsAux_step _ _ _ s0, pyDiv1024_exact0 n h53, hrsAux_stop _ _ _ st]
    rfl
  · have hl : 1024 ^ 2 ≤ n := hlow (by omega)
    have s0 : ¬((n : ℚ) < 1024) := by
      rw [not_lt]; exact_mod_cast le_trans (by norm_num) hl
    have s1 : ¬((n : ℚ) / 1024 ^ 1 < 1024) := qdiv_not_lt n 1 (by simpa using hl)
    have st : (n : ℚ) / 1024 ^ 2 < 1024 := qdiv_lt n 2 (hhigh (by omega))
    unfold human_readable_size
    rw [hrsAux_step _ _ _ s0, pyDiv1024_exact0 n h53, hrsAux_step _ _ _ s1,
      pyDiv1024_exact n 1 h53, hrsAux_stop _ _ _ st]
    rfl
  · have hl : 1024 ^ 3 ≤ n := hlow (by omega)
    have s0 : ¬((n : ℚ) < 1024) := by
      rw [not_lt]; exact_mod_cast le_trans (by norm_num) hl
    have s1 : ¬((n : ℚ) / 1024 ^ 1 < 1024) := qdiv_not_lt n 1 (le_trans (by norm_num) hl)
    have s2 : ¬((n : ℚ) / 1024 ^ 2 < 1024) := qdiv_not_lt n 2 (by simpa using hl)
    have st : (n : ℚ) / 1024 ^ 3 < 1024 := qdiv_lt n 3 (hhigh (by omega))
    unfold human_readable_size
    rw [hrsAux_step _ _ _ s0, pyDiv1024_exact0 n h53, hrsAux_step _ _ _ s1,
      pyDiv1024_exact n 1 h53, hrsAux_step _ _ _ s2, pyDiv1024_exact n 2 h53,
      hrsAux_stop _ _ _ st]
    rfl
  · have hl : 1024 ^ 4 ≤ n := hlow (by omega)
    have s0 : ¬((n : ℚ) < 1024) := by
      rw [not_lt]; exact_mod_cast le_trans (by norm_num) hl
    have s1 : ¬((n : ℚ) / 1024 ^ 1 < 1024) := qdiv_not_lt n 1 (le_trans (by norm_num) hl)
    have s2 : ¬((n : ℚ) / 1024 ^ 2 < 1024) := qdiv_not_lt n 2 (le_trans (by norm_num) hl)
    have s3 : ¬((n : ℚ) / 1024 ^ 3 < 1024) := qdiv_not_lt n 3 (by simpa using hl)
    have st : (n : ℚ) / 1024 ^ 4 < 1024 := qdiv_lt n 4 (hhigh (by omega))
    unfold human_readable_size
    rw [hrsAux_step _ _ _ s0, pyDiv1024_exact0 n h53, hrsAux_step _ _ _ s1,
      pyDiv1024_exact n 1 h53, hrsAux_step _ _ _ s2, pyDiv1024_exact n 2 h53,
      hrsAux_step _ _ _ s3, pyDiv1024_exact n 3 h53, hrsAux_stop _ _ _ st]
    rfl
  · have hl : 1024 ^ 5 ≤ n := hlow (by omega)
    have s0 : ¬((n : ℚ) < 1024) := by
      rw [not_lt]; exact_mod_cast le_trans (by norm_num) hl
    have s1 : ¬((n : ℚ) / 1024 ^ 1 < 1024) := qdiv_not_lt n 1 (le_trans (by norm_num) hl)
    have s2 : ¬((n : ℚ) / 1024 ^ 2 < 1024) := qdiv_not_lt n 2 (le_trans (by norm_num) hl)
    have s3 : ¬((n : ℚ) / 1024 ^ 3 < 1024) := qdiv_not_lt n 3 (le_trans (by norm_num) hl)
    have s4 : ¬((n : ℚ) / 1024 ^ 4 < 1024) := qdiv_not_lt n 4 (by simpa using hl)
    unfold human_readable_size
    rw [hrsAux_step _ _ _ s0, pyDiv1024_exact0 n h53, hrsAux_step _ _ _ s1,
      pyDiv1024_exact n 1 h53, hrsAux_step _ _ _ s2, pyDiv1024_exact n 2 h53,
      hrsAux_step _ _ _ s3, pyDiv1024_exact n 3 h53, hrsAux_step _ _ _ s4,
      pyDiv1024_exact n 4 h53]
    show natDigits (roundHalfEven ((n : ℚ) / 1024 ^ (4 + 1))).toNat ++ ['P'] = _
    norm_num [unitChar]

theorem encode_eq (n : Nat) (h53 : n < 2 ^ 53) :
    human_readable_size n =
      natDigits (roundHalfEven ((n : ℚ) / 1024 ^ scaleExp n)).toNat ++
        [unitChar (scaleExp n)] :=
  hrs_of_bounds n (scaleExp n) h53 (scaleExp_le n) (scaleExp_lower n) (scaleExp_upper n)

theorem encode_int_value (n k : Nat) (m : ℤ) (h53 : n < 2 ^ 53) (hs : scaleExp n = k)
    (hq : ((n : ℕ) : ℚ) / 1024 ^ k = ((m : ℤ) : ℚ)) :
    human_readable_size n = natDigits m.toNat ++ [unitChar k] := by
  have he := encode_eq n h53
  rw [hs, hq, roundHalfEven_intCast] at he
  exact he

/-! Decoding an encoder output. -/

theorem unitChar_map_toUpper (k : Nat) (hk : k ≤ 5) :
    Char.toUpper (unitChar k) = unitChar k := by
  interval_cases k <;> decide

theorem unitVal_unitChar (k : Nat) (hk : k ≤ 5) :
    unitVal (unitChar k) = some ((1024 : ℤ) ^ k) := by
  interval_cases k <;> decide

theorem size_to_bytes_digits_unit (d : Nat) (c : Char) (k : Nat) (hk : k ≤ 5)
    (hc : Char.toUpper c = unitChar k) :
    size_to_bytes (natDigits d ++ [c]) = some ((d : ℤ) * 1024 ^ k) := by
  have hmap : (natDigits d ++ [c]).map Char.toUpper
      = natDigits d ++ [unitChar k] := by
    rw [List.map_append, natDigits_map_toUpper]
    simp [hc]
  simp only [size_to_bytes, hmap, List.getLast?_concat, unitVal_unitChar k hk,
    List.dropLast_concat]
  rw [parseFloat_digits _ (natDigits_ne_nil d) (natDigits_isDigit d)]
  simp only [Option.map_some', digitsVal_natDigits]
  have hcast : ((d : ℚ)) * (((1024 : ℤ) ^ k : ℤ) : ℚ) = (((d * 1024 ^ k : ℤ)) : ℚ) := by
    push_cast
    ring
  rw [hcast, intTrunc_intCast]

theorem size_to_bytes_encode (n : Nat) (h53 : n < 2 ^ 53) :
    size_to_bytes (human_readable_size n) =
      some (((roundHalfEven ((n : ℚ) / 1024 ^ scaleExp n)).toNat : ℤ) *
        1024 ^ scaleExp n) := by
  rw [encode_eq n h53]
  exact size_to_bytes_digits_unit _ _ _ (scaleExp_le n)
    (unitChar_map_toUpper _ (scaleExp_le n))

/-- Round-trip with truncation error bounded by half the selected unit. -/
theorem decode_encode_bound (n : Nat) (h53 : n < 2 ^ 53) :
    ∃ v : ℤ, size_to_bytes (human_readable_size n) = some v ∧
      2 * |v - (n : ℤ)| ≤ 1024 ^ scaleExp n := by
  refine ⟨_, size_to_bytes_encode n h53, ?_⟩
  set k := scaleExp n with hkdef
  set q : ℚ := (n : ℚ) / 1024 ^ k with hq
  have hq0 : 0 ≤ q := by positivity
  have hr := roundHalfEven_abs_le q
  have hnn := roundHalfEven_nonneg q hq0
  have htn : ((roundHalfEven q).toNat : ℤ) = roundHalfEven q := Int.toNat_of_nonneg hnn
  have h1024 : (0 : ℚ) < 1024 ^ k := by positivity
  have key : 2 * |((roundHalfEven q).toNat : ℚ) * 1024 ^ k - (n : ℚ)| ≤ 1024 ^ k := by
    have hc : ((roundHalfEven q).toNat : ℚ) = ((roundHalfEven q : ℤ) : ℚ) := by
      exact_mod_cast htn
    rw [hc]
    have hsplit : ((roundHalfEven q : ℤ) : ℚ) * 1024 ^ k - (n : ℚ)
        = (((roundHalfEven q : ℤ) : ℚ) - q) * 1024 ^ k := by
      rw [hq]
      field_simp
    rw [hsplit, abs_mul, abs_of_pos h1024]
    have hmul : |((roundHalfEven q : ℤ) : ℚ) - q| * 1024 ^ k ≤ (1 / 2) * 1024 ^ k :=
      mul_le_mul_of_nonneg_right hr (le_of_lt h1024)
    linarith
  calc (2 : ℤ) * |((roundHalfEven q).toNat : ℤ) * 1024 ^ k - (n : ℤ)|
      = 2 * |((roundHalfEven q).toNat : ℤ) * 1024 ^ k - (n : ℤ)| := rfl
  _ ≤ 1024 ^ k := by exact_mod_cast key

/-! Behaviour of the encoder beyond the exact regime. -/

theorem floatRound_ge_pow (q : ℚ) (m : ℕ) (h : (2 : ℚ) ^ m ≤ q) :
    (2 : ℚ) ^ m ≤ floatRound q := by
  have hq1 : 1 ≤ q := by
    calc (1 : ℚ) = 2 ^ 0 := by norm_num
    _ ≤ 2 ^ m := pow_le_pow_right₀ (by norm_num) (Nat.zero_le m)
    _ ≤ q := h
  have hfl1 : 1 ≤ ⌊q⌋ := Int.le_floor.mpr (by exact_mod_cast hq1)
  rw [floatRound, if_pos hq1]
  set L := Nat.log 2 ⌊q⌋.toNat with hLdef
  set E : ℤ := (L : ℤ) - 52 with hEdef
  set x : ℚ := q / (2 : ℚ) ^ E with hxdef
  have hEpos : (0 : ℚ) < (2 : ℚ) ^ E := zpow_pos (by norm_num) E
  rcases le_or_lt E (m : ℤ) with hEm | hEm
  · have h1 : (2 : ℚ) ^ ((m : ℤ) - E) ≤ x := by
      rw [hxdef, le_div_iff₀ hEpos, ← zpow_add₀ (by norm_num : (2 : ℚ) ≠ 0),
        sub_add_cancel, zpow_natCast]
      exact h
    have hcast : ((2 : ℚ) ^ ((m : ℤ) - E).toNat) = (2 : ℚ) ^ ((m : ℤ) - E) := by
      rw [← zpow_natCast]
      congr 1
      omega
    have h2 : ((2 : ℤ) ^ ((m : ℤ) - E).toNat) ≤ ⌊x⌋ := by
      apply Int.le_floor.mpr
      push_cast
      rw [hcast]
      exact h1
    have h3 : ((2 : ℤ) ^ ((m : ℤ) - E).toNat) ≤ roundHalfEven x :=
      le_trans h2 (roundHalfEven_ge_floor x)
    have h4 : ((2 : ℚ) ^ ((m : ℤ) - E).toNat) * 2 ^ E ≤ (roundHalfEven x : ℚ) * 2 ^ E := by
      apply mul_le_mul_of_nonneg_right _ (le_of_lt hEpos)
      exact_mod_cast h3
    calc (2 : ℚ) ^ m = ((2 : ℚ) ^ ((m : ℤ) - E).toNat) * 2 ^ E := by
          rw [hcast, ← zpow_add₀ (by norm_num : (2 : ℚ) ≠ 0), sub_add_cancel, zpow_natCast]
    _ ≤ (roundHalfEven x : ℚ) * 2 ^ E := h4
  · have hpow : (2 : ℕ) ^ L ≤ ⌊q⌋.toNat := Nat.pow_log_le_self 2 (by omega)
    have h1 : (2 : ℚ) ^ L ≤ q := by
      have hc1 : ((⌊q⌋.toNat : ℤ)) = ⌊q⌋ := Int.toNat_of_nonneg (by omega)
      calc (2 : ℚ) ^ L ≤ ((⌊q⌋.toNat : ℚ)) := by exact_mod_cast hpow
      _ = ((⌊q⌋ : ℤ) : ℚ) := by exact_mod_cast congrArg (fun z : ℤ => (z : ℚ)) hc1
      _ ≤ q := Int.floor_le q
    have h2 : (2 : ℚ) ^ (52 : ℕ) ≤ x := by
      rw [hxdef, le_div_iff₀ hEpos, ← zpow_natCast (2 : ℚ) 52,
        ← zpow_add₀ (by norm_num : (2 : ℚ) ≠ 0)]
      have he : (((52 : ℕ) : ℤ)) + E = (L : ℤ) := by push_cast; omega
      rw [he, zpow_natCast]
      exact h1
    have h3 : ((2 : ℤ) ^ (52 : ℕ)) ≤ ⌊x⌋ := Int.le_floor.mpr (by exact_mod_cast h2)
    have h4 : ((2 : ℤ) ^ (52 : ℕ)) ≤ roundHalfEven x :=
      le_trans h3 (roundHalfEven_ge_floor x)
    have h5 : ((2 : ℚ) ^ (52 : ℕ)) * 2 ^ E ≤ (roundHalfEven x : ℚ) * 2 ^ E :=
      mul_le_mul_of_nonneg_right (by exact_mod_cast h4) (le_of_lt hEpos)
    calc (2 : ℚ) ^ m ≤ (2 : ℚ) ^ (52 : ℕ) * 2 ^ E := by
          rw [← zpow_natCast (2 : ℚ) 52, ← zpow_add₀ (by norm_num : (2 : ℚ) ≠ 0),
            ← zpow_natCast (2 : ℚ) m]
          apply zpow_le_zpow_right₀ (by norm_num)
          omega
    _ ≤ (roundHalfEven x : ℚ) * 2 ^ E := h5

theorem encode_P_eq (n : ℕ) (hn : 1024 ^ 5 ≤ n) :
    human_readable_size n =
      natDigits (roundHalfEven (pyDiv1024 (pyDiv1024 (pyDiv1024 (pyDiv1024
        (pyDiv1024 ((n : ℚ)))))))).toNat ++ ['P'] := by
  have hq0 : (2 : ℚ) ^ 50 ≤ (n : ℚ) := by
    have hcast : ((1024 : ℕ) ^ 5 : ℕ) = 2 ^ 50 := by norm_num
    calc (2 : ℚ) ^ 50 = ((2 ^ 50 : ℕ) : ℚ) := by push_cast; ring
    _ ≤ (n : ℚ) := by exact_mod_cast hcast ▸ hn
  set v1 := pyDiv1024 ((n : ℚ)) with hv1
  set v2 := pyDiv1024 v1 with hv2
  set v3 := pyDiv1024 v2 with hv3
  set v4 := pyDiv1024 v3 with hv4
  have hb1 : (2 : ℚ) ^ 40 ≤ v1 := by
    rw [hv1, pyDiv1024]
    apply floatRound_ge_pow
    rw [le_div_iff₀ (by norm_num)]
    calc (2 : ℚ) ^ 40 * 1024 = 2 ^ 50 := by norm_num
    _ ≤ (n : ℚ) := hq0
  have hb2 : (2 : ℚ) ^ 30 ≤ v2 := by
    rw [hv2, pyDiv1024]
    apply floatRound_ge_pow
    rw [le_div_iff₀ (by norm_num)]
    calc (2 : ℚ) ^ 30 * 1024 = 2 ^ 40 := by norm_num
    _ ≤ v1 := hb1
  have hb3 : (2 : ℚ) ^ 20 ≤ v3 := by
    rw [hv3, pyDiv1024]
    apply floatRound_ge_pow
    rw [le_div_iff₀ (by norm_num)]
    calc (2 : ℚ) ^ 20 * 1024 = 2 ^ 30 := by norm_num
    _ ≤ v2 := hb2
  have hb4 : (2 : ℚ) ^ 10 ≤ v4 := by
    rw [hv4, pyDiv1024]
    apply floatRound_ge_pow
    rw [le_div_iff₀ (by norm_num)]
    calc (2 : ℚ) ^ 10 * 1024 = 2 ^ 20 := by norm_num
    _ ≤ v3 := hb3
  have s0 : ¬((n : ℚ) < 1024) := by
    rw [not_lt]
    calc (1024 : ℚ) ≤ 2 ^ 50 := by norm_num
    _ ≤ (n : ℚ) := hq0
  have s1 : ¬(v1 < 1024) := by
    rw [not_lt]
    calc (1024 : ℚ) ≤ 2 ^ 40 := by norm_num
    _ ≤ v1 := hb1
  have s2 : ¬(v2 < 1024) := by
    rw [not_lt]
    calc (1024 : ℚ) ≤ 2 ^ 30 := by norm_num
    _ ≤ v2 := hb2
  have s3 : ¬(v3 < 1024) := by
    rw [not_lt]
    calc (1024 : ℚ) ≤ 2 ^ 20 := by norm_num
    _ ≤ v3 := hb3
  have s4 : ¬(v4 < 1024) := by
    rw [not_lt]
    calc (1024 : ℚ) ≤ 2 ^ 10 := by norm_num
    _ ≤ v4 := hb4
  unfold human_readable_size
  rw [hrsAux_step _ _ _ s0, hrsAux_step _ _ _ s1, hrsAux_step _ _ _ s2,
    hrsAux_step _ _ _ s3, hrsAux_step _ _ _ s4]
  rfl

theorem floatRound_abs_err (q : ℚ) (hq1 : 1 ≤ q) (hq2 : q < 2 ^ 53) :
    |floatRound q - q| ≤ q / 2 ^ 53 := by
  have hfl1 : 1 ≤ ⌊q⌋ := Int.le_floor.mpr (by exact_mod_cast hq1)
  set L := Nat.log 2 ⌊q⌋.toNat with hLdef
  have hfl2 : ⌊q⌋ < (((2 : ℕ) ^ 53 : ℕ) : ℤ) := by
    have h1 : (⌊q⌋ : ℚ) < 2 ^ 53 := lt_of_le_of_lt (Int.floor_le q) hq2
    exact_mod_cast h1
  have hL : L ≤ 52 := by
    have h2 : ⌊q⌋.toNat < 2 ^ 53 := by omega
    have h3 : L < 53 := Nat.log_lt_of_lt_pow (by omega) h2
    omega
  rw [floatRound_of_log q L hq1 rfl hL]
  set x : ℚ := q * 2 ^ (52 - L) with hxdef
  have hpos : (0 : ℚ) < 2 ^ (52 - L) := by positivity
  have hr := roundHalfEven_abs_le x
  have heq : ((roundHalfEven x : ℤ) : ℚ) / 2 ^ (52 - L) - q
      = ((roundHalfEven x : ℚ) - x) / 2 ^ (52 - L) := by
    rw [hxdef]
    field_simp
    ring
  rw [heq, abs_div, abs_of_pos hpos]
  have h2L : (2 : ℚ) ^ L ≤ q := by
    have hp := Nat.pow_log_le_self 2 (show ⌊q⌋.toNat ≠ 0 by omega)
    have hc1 : ((⌊q⌋.toNat : ℤ)) = ⌊q⌋ := Int.toNat_of_nonneg (by omega)
    calc (2 : ℚ) ^ L ≤ ((⌊q⌋.toNat : ℚ)) := by exact_mod_cast hp
    _ = ((⌊q⌋ : ℤ) : ℚ) := by exact_mod_cast congrArg (fun z : ℤ => (z : ℚ)) hc1
    _ ≤ q := Int.floor_le q
  calc |(roundHalfEven x : ℚ) - x| / 2 ^ (52 - L) ≤ (1 / 2) / 2 ^ (52 - L) := by gcongr
  _ ≤ q / 2 ^ 53 := by
      rw [div_le_div_iff₀ hpos (by positivity)]
      calc (1 : ℚ) / 2 * 2 ^ 53 = 2 ^ 52 := by norm_num
      _ = 2 ^ L * 2 ^ (52 - L) := by rw [← pow_add]; congr 1; omega
      _ ≤ q * 2 ^ (52 - L) := mul_le_mul_of_nonneg_right h2L (le_of_lt hpos)

theorem floatRound_div_dyadic (q : ℚ) (hq1 : 1 ≤ q) (hq2 : q < 2 ^ 53) :
    ∃ (a j : ℕ), a < 2 ^ 53 ∧ floatRound q / 1024 = (a : ℚ) / 2 ^ j := by
  have hfl1 : 1 ≤ ⌊q⌋ := Int.le_floor.mpr (by exact_mod_cast hq1)
  set L := Nat.log 2 ⌊q⌋.toNat with hLdef
  have hfl2 : ⌊q⌋ < (((2 : ℕ) ^ 53 : ℕ) : ℤ) := by
    have h1 : (⌊q⌋ : ℚ) < 2 ^ 53 := lt_of_le_of_lt (Int.floor_le q) hq2
    exact_mod_cast h1
  have hL : L ≤ 52 := by
    have h2 : ⌊q⌋.toNat < 2 ^ 53 := by omega
    have h3 : L < 53 := Nat.log_lt_of_lt_pow (by omega) h2
    omega
  rw [floatRound_of_log q L hq1 rfl hL]
  set x : ℚ := q * 2 ^ (52 - L) with hxdef
  set R := roundHalfEven x with hRdef
  have hpos : (0 : ℚ) < 2 ^ (52 - L) := by positivity
  have hR0 : 0 ≤ R := roundHalfEven_nonneg x (by positivity)
  have hq3 : q < 2 ^ (L + 1) := by
    have h1 : ⌊q⌋.toNat < 2 ^ (L + 1) := Nat.lt_pow_succ_log_self (by norm_num) _
    have h2 : ⌊q⌋ + 1 ≤ (((2 : ℕ) ^ (L + 1) : ℕ) : ℤ) := by omega
    calc q < ⌊q⌋ + 1 := Int.lt_floor_add_one q
    _ ≤ (((2 : ℕ) ^ (L + 1) : ℕ) : ℚ) := by exact_mod_cast h2
    _ = 2 ^ (L + 1) := by push_cast; ring
  have hxlt : x < 2 ^ 53 := by
    calc x < 2 ^ (L + 1) * 2 ^ (52 - L) := mul_lt_mul_of_pos_right hq3 hpos
    _ = 2 ^ 53 := by rw [← pow_add]; congr 1; omega
  have hfx : ⌊x⌋ < (((2 : ℕ) ^ 53 : ℕ) : ℤ) := by
    have h1 : (⌊x⌋ : ℚ) < 2 ^ 53 := lt_of_le_of_lt (Int.floor_le x) hxlt
    exact_mod_cast h1
  have hRle : R ≤ (((2 : ℕ) ^ 53 : ℕ) : ℤ) := by
    have h4 : R ≤ ⌊x⌋ + 1 := roundHalfEven_le_floor_add_one x
    omega
  rcases lt_or_eq_of_le hRle with hRlt | hReq
  · refine ⟨R.toNat, 62 - L, by omega, ?_⟩
    have hc : ((R.toNat : ℚ)) = ((R : ℤ) : ℚ) := by exact_mod_cast Int.toNat_of_nonneg hR0
    rw [hc, div_div]
    congr 1
    rw [show (1024 : ℚ) = 2 ^ 10 by norm_num, ← pow_add]
    congr 1
    omega
  · refine ⟨2 ^ 52, 61 - L, by norm_num, ?_⟩
    have hc : ((R : ℤ) : ℚ) = 2 ^ 53 := by
      rw [hReq]
      push_cast
      ring
    have hcast : (((2 : ℕ) ^ 52 : ℕ) : ℚ) = 2 ^ 52 := by push_cast; ring
    rw [hc, div_div, hcast, show (1024 : ℚ) = 2 ^ 10 by norm_num, ← pow_add]
    rw [div_eq_div_iff (by positivity) (by positivity)]
    rw [← pow_add, ← pow_add]
    congr 1
    omega

theorem decode_encode_bound_big (n : ℕ) (h1 : 2 ^ 53 ≤ n) (h2 : n < 2 ^ 63) :
    ∃ v : ℤ, size_to_bytes (human_readable_size n) = some v ∧
      |v - (n : ℤ)| ≤ 1024 ^ 5 := by
  set q : ℚ := (n : ℚ) / 1024 with hqdef
  have hn1 : (2 : ℚ) ^ 53 ≤ (n : ℚ) := by exact_mod_cast h1
  have hn2 : (n : ℚ) < 2 ^ 63 := by exact_mod_cast h2
  have hq1 : 1 ≤ q := by
    rw [hqdef, le_div_iff₀ (by norm_num)]
    calc (1 : ℚ) * 1024 = 1024 := by norm_num
    _ ≤ 2 ^ 53 := by norm_num
    _ ≤ (n : ℚ) := hn1
  have hq2 : q < 2 ^ 53 := by
    rw [hqdef, div_lt_iff₀ (by norm_num)]
    calc (n : ℚ) < 2 ^ 63 := hn2
    _ = 2 ^ 53 * 1024 := by norm_num
  set w : ℚ := floatRound q with hwdef
  have hwerr : |w - q| ≤ q / 2 ^ 53 := floatRound_abs_err q hq1 hq2
  obtain ⟨a, j, haj, hdy⟩ := floatRound_div_dyadic q hq1 hq2
  rw [← hwdef] at hdy
  have hdy2 : w / 1024 / 1024 = (a : ℚ) / 2 ^ (j + 10) := by
    rw [hdy, div_div, show ((2 : ℚ) ^ j * 1024) = 2 ^ (j + 10) by
      rw [show (1024 : ℚ) = 2 ^ 10 by norm_num, ← pow_add]]
  have hdy3 : w / 1024 / 1024 / 1024 = (a : ℚ) / 2 ^ (j + 20) := by
    rw [hdy2, div_div, show ((2 : ℚ) ^ (j + 10) * 1024) = 2 ^ (j + 20) by
      rw [show (1024 : ℚ) = 2 ^ 10 by norm_num, ← pow_add]]
  have hv1 : pyDiv1024 ((n : ℚ)) = w := by rw [pyDiv1024, ← hqdef, hwdef]
  have hv2 : pyDiv1024 w = w / 1024 := by
    rw [pyDiv1024, hdy, floatRound_eq_dyadic a j haj, ← hdy]
  have hdy4 : w / 1024 / 1024 / 1024 / 1024 = (a : ℚ) / 2 ^ (j + 30) := by
    rw [hdy3, div_div, show ((2 : ℚ) ^ (j + 20) * 1024) = 2 ^ (j + 30) by
      rw [show (1024 : ℚ) = 2 ^ 10 by norm_num, ← pow_add]]
  have hv3 : pyDiv1024 (w / 1024) = w / 1024 / 1024 := by
    calc pyDiv1024 (w / 1024) = floatRound (w / 1024 / 1024) := rfl
    _ = floatRound ((a : ℚ) / 2 ^ (j + 10)) := by rw [hdy2]
    _ = (a : ℚ) / 2 ^ (j + 10) := floatRound_eq_dyadic a (j + 10) haj
    _ = w / 1024 / 1024 := hdy2.symm
  have hv4 : pyDiv1024 (w / 1024 / 1024) = w / 1024 / 1024 / 1024 := by
    calc pyDiv1024 (w / 1024 / 1024) = floatRound (w / 1024 / 1024 / 1024) := rfl
    _ = floatRound ((a : ℚ) / 2 ^ (j + 20)) := by rw [hdy3]
    _ = (a : ℚ) / 2 ^ (j + 20) := floatRound_eq_dyadic a (j + 20) haj
    _ = w / 1024 / 1024 / 1024 := hdy3.symm
  have hv5 : pyDiv1024 (w / 1024 / 1024 / 1024) = w / 1024 / 1024 / 1024 / 1024 := by
    calc pyDiv1024 (w / 1024 / 1024 / 1024)
        = floatRound (w / 1024 / 1024 / 1024 / 1024) := rfl
    _ = floatRound ((a : ℚ) / 2 ^ (j + 30)) := by rw [hdy4]
    _ = (a : ℚ) / 2 ^ (j + 30) := floatRound_eq_dyadic a (j + 30) haj
    _ = w / 1024 / 1024 / 1024 / 1024 := hdy4.symm
  have henc := encode_P_eq n (by
    calc (1024 : ℕ) ^ 5 = 2 ^ 50 := by norm_num
    _ ≤ 2 ^ 53 := by norm_num
    _ ≤ n := h1)
  rw [hv1, hv2, hv3, hv4, hv5] at henc
  have hy : w / 1024 / 1024 / 1024 / 1024 = w / 2 ^ 40 := by
    rw [div_div, div_div, div_div]
    norm_num
  rw [hy] at henc
  set m : ℤ := roundHalfEven (w / 2 ^ 40) with hmdef
  have hw1 : (1 : ℚ) ≤ w := by
    have := floatRound_ge_pow q 0 (by simpa using hq1)
    simpa [hwdef] using this
  have hm0 : 0 ≤ m := roundHalfEven_nonneg _ (by positivity)
  rw [henc, size_to_bytes_digits_unit m.toNat 'P' 5 (by norm_num) (by decide)]
  refine ⟨_, rfl, ?_⟩
  have htn : ((m.toNat : ℤ)) = m := Int.toNat_of_nonneg hm0
  rw [htn]
  have hround : |(m : ℚ) - w / 2 ^ 40| ≤ 1 / 2 := roundHalfEven_abs_le _
  have key : |(m : ℚ) * 1024 ^ 5 - (n : ℚ)| ≤ 1024 ^ 5 := by
    have hsplit : (m : ℚ) * 1024 ^ 5 - (n : ℚ)
        = ((m : ℚ) - w / 2 ^ 40) * 1024 ^ 5 + (w - q) * 2 ^ 10 := by
      rw [hqdef]
      field_simp
      ring
    calc |(m : ℚ) * 1024 ^ 5 - (n : ℚ)|
        = |((m : ℚ) - w / 2 ^ 40) * 1024 ^ 5 + (w - q) * 2 ^ 10| := by rw [hsplit]
    _ ≤ |((m : ℚ) - w / 2 ^ 40) * 1024 ^ 5| + |(w - q) * 2 ^ 10| := abs_add _ _
    _ = |(m : ℚ) - w / 2 ^ 40| * 1024 ^ 5 + |w - q| * 2 ^ 10 := by
        rw [abs_mul, abs_mul, abs_of_pos (by norm_num : (0 : ℚ) < 1024 ^ 5),
          abs_of_pos (by norm_num : (0 : ℚ) < (2 : ℚ) ^ 10)]
    _ ≤ (1 / 2) * 1024 ^ 5 + (q / 2 ^ 53) * 2 ^ 10 := by gcongr
    _ ≤ (1 / 2) * 1024 ^ 5 + (1 / 2) * 1024 ^ 5 := by
        have hqb : q ≤ 2 ^ 53 := le_of_lt hq2
        have : (q / 2 ^ 53) * 2 ^ 10 ≤ 2 ^ 10 := by
          rw [div_mul_eq_mul_div, div_le_iff₀ (by positivity)]
          calc q * 2 ^ 10 ≤ 2 ^ 53 * 2 ^ 10 :=
                mul_le_mul_of_nonneg_right hqb (by positivity)
          _ = 2 ^ 10 * 2 ^ 53 := by ring
        linarith [this]
    _ = 1024 ^ 5 := by ring
  have : |m * 1024 ^ 5 - (n : ℤ)| ≤ 1024 ^ 5 := by exact_mod_cast key
  exact this

/-! Characterization of the grouping query. -/

theorem hashKeys_mem (rs : List FileRecord) (h : Str) :
    h ∈ hashKeys rs ↔ ∃ r ∈ rs, r.hash = h := by
  induction rs with
  | nil => simp [hashKeys]
  | cons r rs ih =>
    simp only [hashKeys, List.mem_cons, List.mem_filter, bne_iff_ne, ne_eq]
    constructor
    · rintro (rfl | ⟨hmem, _⟩)
      · exact ⟨r, by simp⟩
      · obtain ⟨r', hr', he⟩ := ih.mp hmem
        exact ⟨r', by simp [hr'], he⟩
    · rintro ⟨r', hr', he⟩
      rcases hr' with rfl | hr'
      · exact Or.inl he.symm
      · by_cases hcase : h = r.hash
        · exact Or.inl hcase
        · exact Or.inr ⟨ih.mpr ⟨r', hr', he⟩, fun hc => hcase hc⟩

theorem hashKeys_nodup (rs : List FileRecord) : (hashKeys rs).Nodup := by
  induction rs with
  | nil => simp [hashKeys]
  | cons r rs ih =>
    simp only [hashKeys, List.nodup_cons]
    refine ⟨fun hmem => ?_, ih.filter _⟩
    obtain ⟨-, hne⟩ := List.mem_filter.mp hmem
    simp at hne

theorem groupByHash_mem (rs : List FileRecord) (h : Str) (ps : List Str) :
    (h, ps) ∈ groupByHash rs ↔
      2 ≤ (rs.filter fun r => r.hash == h).length ∧
        ps = (rs.filter fun r => r.hash == h).map FileRecord.path := by
  simp only [groupByHash, List.mem_filter, List.mem_map, decide_eq_true_eq]
  constructor
  · rintro ⟨⟨k, hk, heq⟩, hlen⟩
    obtain ⟨hkh, hps⟩ := Prod.mk.inj heq
    subst hkh
    subst hps
    refine ⟨?_, rfl⟩
    rw [List.length_map] at hlen
    omega
  · rintro ⟨hlen, rfl⟩
    have hne : (rs.filter fun r => r.hash == h) ≠ [] := by
      intro hnil
      rw [hnil] at hlen
      simp at hlen
    obtain ⟨r, hr⟩ := List.exists_mem_of_ne_nil _ hne
    obtain ⟨hrs, hrh⟩ := List.mem_filter.mp hr
    refine ⟨⟨h, ?_, rfl⟩, by simpa using hlen⟩
    exact (hashKeys_mem rs h).mpr ⟨r, hrs, by simpa using hrh⟩

theorem groupByHash_keys_nodup (rs : List FileRecord) :
    ((groupByHash rs).map Prod.fst).Nodup := by
  have hsub : List.Sublist ((groupByHash rs).map Prod.fst)
      (((hashKeys rs).map fun h =>
        (h, (rs.filter fun r => r.hash == h).map FileRecord.path)).map Prod.fst) := by
    exact (List.filter_sublist _).map _
  have : ((hashKeys rs).map fun h =>
      (h, (rs.filter fun r => r.hash == h).map FileRecord.path)).map Prod.fst
      = hashKeys rs := by
    have hfun : (Prod.fst ∘ fun h : Str =>
        (h, (rs.filter fun r => r.hash == h).map FileRecord.path)) = id := rfl
    rw [List.map_map, hfun, List.map_id]
  rw [this] at hsub
  exact (hashKeys_nodup rs).sublist hsub

/-! Unfolding lemmas for find_duplicates. -/

theorem find_duplicates_none (rs : List FileRecord) :
    find_duplicates rs none = groupByHash rs := rfl

theorem find_duplicates_some (rs : List FileRecord) (m : ℤ) (hm : m ≠ 0) :
    find_duplicates rs (some m) =
      groupByHash (rs.filter fun r => decide ((m : ℚ) ≤ sqlSizeVal r.size)) := by
  simp [find_duplicates, hm]

/-! Substring and path lemmas for directory exclusion. -/

theorem containsSubstr_append (s t e : Str) (h : containsSubstr s e = true) :
    containsSubstr (s ++ t) e = true := by
  simp only [containsSubstr, decide_eq_true_eq] at h ⊢
  obtain ⟨a, b, hab⟩ := h
  exact ⟨a, b ++ t, by rw [← hab]; simp⟩

theorem joinPath_extends (root name : Str) (hroot : root ≠ []) :
    ∃ rest, joinPath root name = root ++ rest := by
  unfold joinPath
  rw [if_neg hroot]
  split
  · exact ⟨name, rfl⟩
  · exact ⟨'/' :: name, rfl⟩

theorem containsSubstr_joinPath (root name e : Str)
    (h : containsSubstr root e = true) :
    containsSubstr (joinPath root name) e = true := by
  by_cases hroot : root = []
  · subst hroot
    simp only [containsSubstr, decide_eq_true_eq] at h ⊢
    have he : e = [] := by simpa using h
    subst he
    exact ⟨[], joinPath [] name, by simp⟩
  · obtain ⟨rest, hj⟩ := joinPath_extends root name hroot
    rw [hj]
    exact containsSubstr_append root rest e h

theorem excluded_joinPath (F : Filters) (root name : Str)
    (h : F.exclude_dirs.any (fun excl => containsSubstr root excl) = true) :
    F.exclude_dirs.any (fun excl => containsSubstr (joinPath root name) excl) = true := by
  rw [List.any_eq_true] at h ⊢
  obtain ⟨e, he, hc⟩ := h
  exact ⟨e, he, containsSubstr_joinPath root name e hc⟩

/-! Facts about the per-directory file loop. -/

theorem processFiles_cons (F : Filters) (env : FSEnv) (root f : Str)
    (fs : List Str) (acc : List FileRecord × Nat) :
    processFiles F env root (f :: fs) acc =
      processFiles F env root fs
        (match processFile F env root f with
         | some r => (acc.1 ++ [r], acc.2 + 1)
         | none => acc) := by
  simp [processFiles]

theorem processFiles_noins (F : Filters) (env : FSEnv) (root : Str)
    (hP : ∀ file, processFile F env root file = none) :
    ∀ (files : List Str) (acc : List FileRecord × Nat),
      processFiles F env root files acc = acc
  | [], acc => rfl
  | f :: fs, acc => by
    rw [processFiles_cons, hP f]
    exact processFiles_noins F env root hP fs acc

theorem processFiles_count (F : Filters) (env : FSEnv) (root : Str) :
    ∀ (files : List Str) (acc : List FileRecord × Nat),
      acc.2 = acc.1.length →
      (processFiles F env root files acc).2 =
        (processFiles F env root files acc).1.length
  | [], acc, h => h
  | f :: fs, acc, h => by
    rw [processFiles_cons]
    apply processFiles_count F env root fs
    cases hcase : processFile F env root f with
    | none => simpa using h
    | some r => simp [h]

/-! Unfolding equations for the walk. -/

theorem walkTree_node (F : Filters) (env : FSEnv) (root : Str)
    (files : List Str) (subdirs : FSForest) (acc : List FileRecord × Nat) :
    walkTree F env root (.node files subdirs) acc =
      walkForest F env root subdirs
        (if F.exclude_dirs.any (fun excl => containsSubstr root excl) then acc
         else processFiles F env root files acc) := rfl

theorem walkForest_nil (F : Filters) (env : FSEnv) (root : Str)
    (acc : List FileRecord × Nat) :
    walkForest F env root .nil acc = acc := rfl

theorem walkForest_cons (F : Filters) (env : FSEnv) (root name : Str)
    (t : FSTree) (rest : FSForest) (acc : List FileRecord × Nat) :
    walkForest F env root (.cons name t rest) acc =
      walkForest F env root rest (walkTree F env (joinPath root name) t acc) := rfl

/-! Walk inductions. -/

mutual
theorem walkTree_excluded (F : Filters) (env : FSEnv) :
    ∀ (root : Str) (t : FSTree) (acc : List FileRecord × Nat),
      F.exclude_dirs.any (fun excl => containsSubstr root excl) = true →
      walkTree F env root t acc = acc
  | root, .node files subdirs, acc, hex => by
    rw [walkTree_node, if_pos hex]
    exact walkForest_excluded F env root subdirs acc hex
theorem walkForest_excluded (F : Filters) (env : FSEnv) :
    ∀ (root : Str) (fs : FSForest) (acc : List FileRecord × Nat),
      F.exclude_dirs.any (fun excl => containsSubstr root excl) = true →
      walkForest F env root fs acc = acc
  | _root, .nil, _acc, _hex => rfl
  | root, .cons name t rest, acc, hex => by
    rw [walkForest_cons,
      walkTree_excluded F env (joinPath root name) t acc (excluded_joinPath F root name hex)]
    exact walkForest_excluded F env root rest acc hex
end

mutual
theorem walkTree_noins (F : Filters) (env : FSEnv)
    (hP : ∀ root file, processFile F env root file = none) :
    ∀ (root : Str) (t : FSTree) (acc : List FileRecord × Nat),
      walkTree F env root t acc = acc
  | root, .node files subdirs, acc => by
    rw [walkTree_node]
    have hbr : (if F.exclude_dirs.any (fun excl => containsSubstr root excl) then acc
        else processFiles F env root files acc) = acc := by
      rw [processFiles_noins F env root (hP root) files acc]
      simp
    rw [hbr]
    exact walkForest_noins F env hP root subdirs acc
theorem walkForest_noins (F : Filters) (env : FSEnv)
    (hP : ∀ root file, processFile F env root file = none) :
    ∀ (root : Str) (fs : FSForest) (acc : List FileRecord × Nat),
      walkForest F env root fs acc = acc
  | _root, .nil, _acc => rfl
  | root, .cons name t rest, acc => by
    rw [walkForest_cons, walkTree_noins F env hP (joinPath root name) t acc]
    exact walkForest_noins F env hP root rest acc
end

mutual
theorem walkTree_count (F : Filters) (env : FSEnv) :
    ∀ (root : Str) (t : FSTree) (acc : List FileRecord × Nat),
      acc.2 = acc.1.length →
      (walkTree F env root t acc).2 = (walkTree F env root t acc).1.length
  | root, .node files subdirs, acc, h => by
    rw [walkTree_node]
    apply walkForest_count F env root subdirs
    split
    · exact h
    · exact processFiles_count F env root files acc h
theorem walkForest_count (F : Filters) (env : FSEnv) :
    ∀ (root : Str) (fs : FSForest) (acc : List FileRecord × Nat),
      acc.2 = acc.1.length →
      (walkForest F env root fs acc).2 = (walkForest F env root fs acc).1.length
  | _root, .nil, _acc, h => h
  | root, .cons name t rest, acc, h => by
    rw [walkForest_cons]
    exact walkForest_count F env root rest _
      (walkTree_count F env (joinPath root name) t acc h)
end

/-! Per-file admission lemmas. -/

theorem processFile_include_reject (F : Filters) (env : FSEnv) (root file : Str)
    (hinc : F.include_files ≠ []) (hmem : joinPath root file ∉ F.include_files) :
    processFile F env root file = none := by
  simp only [processFile]
  rw [if_pos ⟨hinc, hmem⟩]

theorem processFile_hash_none (F : Filters) (env : FSEnv) (root file : Str)
    (hh : env.hashF (joinPath root file) = none) :
    processFile F env root file = none := by
  simp only [processFile, hh]
  split
  · rfl
  · split <;> rfl

theorem processFile_skip_empty (F : Filters) (env : FSEnv) (root file : Str)
    (hmem : ([] : Str) ∈ F.skip_types) :
    processFile F env root file = none := by
  have hskip : F.skip_types.any (fun ext => decide (ext <:+ file)) = true :=
    List.any_eq_true.mpr ⟨[], hmem, by simp⟩
  simp only [processFile]
  by_cases hc1 : F.include_files ≠ [] ∧ joinPath root file ∉ F.include_files
  · rw [if_pos hc1]
  · rw [if_neg hc1, if_pos hskip]

theorem processFile_statfail (F : Filters) (env : FSEnv) (root file hsh : Str)
    (hinc : F.include_files = [] ∨ joinPath root file ∈ F.include_files)
    (hskip : F.skip_types.any (fun ext => decide (ext <:+ file)) = false)
    (hh : env.hashF (joinPath root file) = some hsh) (hne : hsh ≠ [])
    (hs : env.sizeF (joinPath root file) = none) :
    processFile F env root file = some ⟨joinPath root file, hsh, ['0', 'B']⟩ := by
  have hC1 : ¬(F.include_files ≠ [] ∧ joinPath root file ∉ F.include_files) := by
    rcases hinc with h | h
    · simp [h]
    · simp [h]
  simp only [processFile, hh, hs]
  rw [if_neg hC1, if_neg (by simp [hskip]), if_neg hne]

theorem processFile_none_iff_include_empty (F : Filters) (env : FSEnv)
    (root file : Str) (hinc : F.include_files = []) :
    processFile F env root file = none ↔
      F.skip_types.any (fun ext => decide (ext <:+ file)) = true ∨
      env.hashF (joinPath root file) = none ∨
      env.hashF (joinPath root file) = some [] := by
  have hC1 : ¬(F.include_files ≠ [] ∧ joinPath root file ∉ F.include_files) := by
    simp [hinc]
  simp only [processFile]
  rw [if_neg hC1]
  by_cases hskip : F.skip_types.any (fun ext => decide (ext <:+ file)) = true
  · simp [hskip]
  · rw [if_neg hskip]
    cases hh : env.hashF (joinPath root file) with
    | none => simp [hskip]
    | some hsh =>
      by_cases hz : hsh = []
      · subst hz
        simp [hskip]
      · simp [hskip, hz]

/-! Concrete data used by witnesses and counterexamples. -/

/-- Environment whose hashes always succeed and whose stat returns 5 bytes. -/
def envOk : FSEnv := ⟨fun _ => some ['h'], fun _ => some 5⟩

/-- Environment whose hash_file always fails (returns None). -/
def envHashFail : FSEnv := ⟨fun _ => none, fun _ => some 5⟩

/-- Environment whose hashes succeed but whose getsize always raises. -/
def envStatFail : FSEnv := ⟨fun _ => some ['h'], fun _ => none⟩

/-- A directory holding a single file named "f". -/
def exTreeOne : FSTree := .node [['f']] .nil

/-- A directory holding "x.txt" and a subdirectory "sub" holding "y.txt". -/
def exTreeVenv : FSTree :=
  .node ["x.txt".data] (.cons "sub".data (.node ["y.txt".data] .nil) .nil)

/-- Filters excluding directories containing "venv" while including the
full path of a file that lies beneath such a directory. -/
def exFiltersVenv : Filters :=
  ⟨[], ["venv".data], ["/proj/my_venv/x.txt".data]⟩

/-- Three records: hash H1 twice (pa, pc) and hash H2 once (pb). -/
def exThree : List FileRecord :=
  [⟨"pa".data, "H1".data, "1K".data⟩, ⟨"pb".data, "H2".data, "1K".data⟩,
   ⟨"pc".data, "H1".data, "1K".data⟩]

/-- Two records sharing hash H, one encoded "5M" and one "20M". -/
def exPairC1 : List FileRecord :=
  [⟨"p1".data, "H".data, "5M".data⟩, ⟨"p2".data, "H".data, "20M".data⟩]

theorem sqlSizeVal_5M : sqlSizeVal ("5M".data) = 5242880 := by
  have h : sqlSizeVal ("5M".data) = ((5 : ℕ) : ℚ) * ((1048576 : ℤ) : ℚ) := rfl
  rw [h]
  push_cast
  norm_num

theorem sqlSizeVal_20M : sqlSizeVal ("20M".data) = 20971520 := by
  have h : sqlSizeVal ("20M".data) = ((20 : ℕ) : ℚ) * ((1048576 : ℤ) : ℚ) := rfl
  rw [h]
  push_cast
  norm_num

/-! Claim theorems. -/

/-- C1 (amended): when minBytes is truthy, find_duplicates restricts the
rows to those whose per-record decoded size is at least minBytes BEFORE
grouping, so a group for a hash is returned iff at least TWO of that
hash's records meet the threshold, and the group lists exactly the
qualifying records' paths in insertion order; in particular a duplicate
group all of whose members are encoded as "5M" is excluded when
minBytes = 10*1024*1024. -/
theorem claim_C1 :
    (∀ (records : List FileRecord) (m : ℤ), m ≠ 0 →
      ∀ (h : Str) (ps : List Str),
        (h, ps) ∈ find_duplicates records (some m) ↔
          2 ≤ ((records.filter fun r => decide ((m : ℚ) ≤ sqlSizeVal r.size)).filter
                fun r => r.hash == h).length ∧
          ps = ((records.filter fun r => decide ((m : ℚ) ≤ sqlSizeVal r.size)).filter
                fun r => r.hash == h).map FileRecord.path) ∧
    (∀ records : List FileRecord, (∀ r ∈ records, r.size = "5M".data) →
      find_duplicates records (some (10 * 1024 * 1024)) = []) := by
  constructor
  · intro records m hm h ps
    rw [find_duplicates_some records m hm]
    exact groupByHash_mem _ h ps
  · intro records hall
    rw [find_duplicates_some records _ (by norm_num)]
    have hfil : records.filter
        (fun r => decide (((10 * 1024 * 1024 : ℤ) : ℚ) ≤ sqlSizeVal r.size)) = [] := by
      rw [List.filter_eq_nil_iff]
      intro r hr
      rw [hall r hr, sqlSizeVal_5M]
      simp only [decide_eq_true_eq]
      push_cast
      norm_num
    rw [hfil]
    rfl

/-- C1 counterexample: two records share hash "H" with stored sizes "5M"
and "20M"; the decoded size of "20M" per the codec unit table is
20971520 ≥ 10*1024*1024, so the claim as stated predicts the group is
retained, yet find_duplicates with that threshold returns no group at
all (only one row survives the per-row WHERE filter, and the HAVING
COUNT(*) > 1 clause then drops the hash). -/
theorem claim_C1_counterexample :
    2 ≤ (exPairC1.filter fun r => r.hash == "H".data).length ∧
    size_to_bytes ("20M".data) = some 20971520 ∧
    (10 * 1024 * 1024 : ℤ) ≤ 20971520 ∧
    find_duplicates exPairC1 (some (10 * 1024 * 1024)) = [] := by
  have h20 : size_to_bytes ("20M".data) = some 20971520 := by
    rw [show ("20M".data) = natDigits 20 ++ ['M'] from by simp [natDigits, digChar],
      size_to_bytes_digits_unit 20 'M' 2 (by norm_num) (by decide)]
    norm_num
  refine ⟨by decide, h20, by decide, ?_⟩
  rw [find_duplicates_some _ _ (by decide)]
  have hp1 : ¬(((10 * 1024 * 1024 : ℤ) : ℚ) ≤ sqlSizeVal ("5M".data)) := by
    rw [sqlSizeVal_5M]
    push_cast
    norm_num
  have hp2 : ((10 * 1024 * 1024 : ℤ) : ℚ) ≤ sqlSizeVal ("20M".data) := by
    rw [sqlSizeVal_20M]
    push_cast
    norm_num
  have hfil : exPairC1.filter
      (fun r => decide (((10 * 1024 * 1024 : ℤ) : ℚ) ≤ sqlSizeVal r.size)) =
      [⟨"p2".data, "H".data, "20M".data⟩] := by
    simp only [exPairC1, List.filter_cons, List.filter_nil,
      decide_eq_false hp1, decide_eq_true hp2]
    simp
  rw [hfil]
  decide

/-- C2: with no minBytes, find_duplicates returns exactly one group per
hash having at least two rows — the group holding all of that hash's
paths in insertion order — and no group for a hash with fewer than two
rows; on records H1, H2, H1 it returns the single group for H1 with both
paths in insertion order. -/
theorem claim_C2 :
    (∀ (records : List FileRecord) (h : Str) (ps : List Str),
        (h, ps) ∈ find_duplicates records none ↔
          2 ≤ (records.filter fun r => r.hash == h).length ∧
            ps = (records.filter fun r => r.hash == h).map FileRecord.path) ∧
    (∀ records : List FileRecord,
        ((find_duplicates records none).map Prod.fst).Nodup) ∧
    find_duplicates exThree none = [("H1".data, ["pa".data, "pc".data])] := by
  refine ⟨?_, ?_, by decide⟩
  · intro records h ps
    rw [find_duplicates_none]
    exact groupByHash_mem records h ps
  · intro records
    rw [find_duplicates_none]
    exact groupByHash_keys_nodup records

/-- C3: if any configured exclude substring occurs anywhere in a
directory's path, the walk of that directory's whole subtree inserts
nothing and counts nothing — the exclusion is decided at directory level
before any per-file check, so it holds for every include set, in
particular when a file of the subtree is an exact member of a non-empty
include set. -/
theorem claim_C3 (F : Filters) (env : FSEnv) (excl root : Str) (t : FSTree)
    (acc : List FileRecord × Nat) (hmem : excl ∈ F.exclude_dirs)
    (hsub : containsSubstr root excl = true) :
    walkTree F env root t acc = acc :=
  walkTree_excluded F env root t acc (List.any_eq_true.mpr ⟨excl, hmem, hsub⟩)

/-- C3 witness: with exclude_dirs ["venv"], walking "/proj/my_venv" — a
directory that merely CONTAINS "venv" in its name — indexes nothing,
although the non-empty include set holds "/proj/my_venv/x.txt". -/
theorem claim_C3_witness :
    walkTree exFiltersVenv envOk ("/proj/my_venv".data) exTreeVenv ([], 0) = ([], 0) :=
  claim_C3 exFiltersVenv envOk ("venv".data) ("/proj/my_venv".data) exTreeVenv
    ([], 0) (by decide) (by decide)

/-- C4: in a visited directory, a file is rejected whenever the include
set is non-empty and the file's full path is not an exact member,
whatever the skip-extension set; with an empty include set no allowlist
restriction applies — the file is then skipped exactly when a skip suffix
matches or hashing produces no truthy digest. -/
theorem claim_C4 (skips excl inc : List Str) (env : FSEnv) (root file : Str) :
    (inc ≠ [] → joinPath root file ∉ inc →
        processFile ⟨skips, excl, inc⟩ env root file = none) ∧
    (inc = [] →
        (processFile ⟨skips, excl, inc⟩ env root file = none ↔
          skips.any (fun ext => decide (ext <:+ file)) = true ∨
          env.hashF (joinPath root file) = none ∨
          env.hashF (joinPath root file) = some [])) :=
  ⟨fun h1 h2 => processFile_include_reject _ env root file h1 h2,
   fun h1 => processFile_none_iff_include_empty _ env root file h1⟩

/-- C5: the encoder divides by 1024 until the value is below 1024,
choosing the unit from B, K, M, G, T, P with zero-decimal formatting, and
never scales past P: encode 1023 = "1023B", encode 1024 = "1K",
encode (1024^5) = "1P"; every n beyond 1024^5 is rendered as a digit
string with unit "P" (the bound n < 2^1024 keeps the statement inside
the regime where Python's float division cannot overflow), and in the
exact float regime n < 2^53 those digits are n/1024^5 rounded to zero
decimals. -/
theorem claim_C5 :
    human_readable_size 1023 = "1023B".data ∧
    human_readable_size 1024 = "1K".data ∧
    human_readable_size (1024 ^ 5) = "1P".data ∧
    (∀ n : Nat, 1024 ^ 5 ≤ n → n < 2 ^ 1024 →
      ∃ m : ℕ, human_readable_size n = natDigits m ++ ['P']) ∧
    (∀ n : Nat, 1024 ^ 5 ≤ n → n < 2 ^ 53 →
      human_readable_size n =
        natDigits (roundHalfEven ((n : ℚ) / 1024 ^ 5)).toNat ++ ['P']) := by
  refine ⟨(encode_int_value 1023 0 1023 (by norm_num) (by decide) (by norm_num)).trans
      (by simp [natDigits, digChar, unitChar]),
    (encode_int_value 1024 1 1 (by norm_num) (by decide) (by norm_num)).trans
      (by simp [natDigits, digChar, unitChar]),
    (encode_int_value (1024 ^ 5) 5 1 (by norm_num) (by decide)
        (by push_cast; norm_num)).trans
      (by simp [natDigits, digChar, unitChar]), ?_, ?_⟩
  · intro n hn _hov
    exact ⟨_, encode_P_eq n hn⟩
  · intro n hn h53
    have h5 : scaleExp n = 5 := by
      have hn' : 1125899906842624 ≤ n := by
        calc (1125899906842624 : ℕ) = 1024 ^ 5 := by norm_num
        _ ≤ n := hn
      unfold scaleExp
      split_ifs <;> omega
    have he := encode_eq n h53
    rw [h5] at he
    exact he

/-- C5 witness: 2*1024^5 is beyond the P boundary and is encoded as a
digit string with unit "P", as the universal clause of C5 predicts. -/
theorem claim_C5_witness :
    ∃ m : ℕ, human_readable_size (2 * 1024 ^ 5) = natDigits m ++ ['P'] :=
  claim_C5.2.2.2.1 (2 * 1024 ^ 5) (by norm_num) (by norm_num)

/-- C6 (amended): the round trip decode(encode n) is lossy but bounded:
for every n < 2^53 (where the float pipeline is exact) the error is at
most HALF the granularity 1024^k of the unit k chosen for n, and for
every larger legal file size (2^53 ≤ n < 2^63, st_size being a signed
64-bit count) the single rounded float division keeps the error within
ONE granularity 1024^5 of the P unit; encode 1536 = "2K" and
decode "2K" = 2048; decode parses the trailing unit letter
case-insensitively ("2k" decodes like "2K") and a string with no
recognized trailing unit is parsed as a raw integer byte count. -/
theorem claim_C6 :
    human_readable_size 1536 = "2K".data ∧
    size_to_bytes ("2K".data) = some 2048 ∧
    size_to_bytes ("2k".data) = some 2048 ∧
    size_to_bytes ("12345".data) = some 12345 ∧
    (∀ n : Nat, n < 2 ^ 53 →
      ∃ v : ℤ, size_to_bytes (human_readable_size n) = some v ∧
        2 * |v - (n : ℤ)| ≤ 1024 ^ scaleExp n) ∧
    (∀ n : Nat, 2 ^ 53 ≤ n → n < 2 ^ 63 →
      ∃ v : ℤ, size_to_bytes (human_readable_size n) = some v ∧
        |v - (n : ℤ)| ≤ 1024 ^ 5) := by
  have hr32 : roundHalfEven (3 / 2 : ℚ) = 2 := by
    have hf32 : ⌊(3 / 2 : ℚ)⌋ = 1 := by norm_num
    simp only [roundHalfEven, hf32]
    norm_num
  have h1536 : human_readable_size 1536 = "2K".data := by
    have he := encode_eq 1536 (by norm_num)
    rw [show scaleExp 1536 = 1 from by decide,
      show ((1536 : ℕ) : ℚ) / 1024 ^ 1 = 3 / 2 from by norm_num, hr32] at he
    exact he.trans (by simp [natDigits, digChar, unitChar])
  have h2K : size_to_bytes ("2K".data) = some 2048 := by
    rw [show ("2K".data) = natDigits 2 ++ ['K'] from by simp [natDigits, digChar],
      size_to_bytes_digits_unit 2 'K' 1 (by norm_num) (by decide)]
    norm_num
  have h2k : size_to_bytes ("2k".data) = some 2048 := by
    rw [show ("2k".data) = natDigits 2 ++ ['k'] from by simp [natDigits, digChar],
      size_to_bytes_digits_unit 2 'k' 1 (by norm_num) (by decide)]
    norm_num
  have hraw : size_to_bytes ("12345".data) = some 12345 := by
    have hmap : ("12345".data).map Char.toUpper = "12345".data := by decide
    have h1 : size_to_bytes ("12345".data) = parseInt ("12345".data) := by
      simp only [size_to_bytes, hmap]
      rfl
    rw [h1, parseInt_digits _ (by decide) (by decide)]
    decide
  exact ⟨h1536, h2K, h2k, hraw, decode_encode_bound, decode_encode_bound_big⟩

/-- C6 counterexample: at the legal file size n = 19*2^49 - 1 the
program encodes "10P" (the first float division rounds the quotient up
to the even-mantissa double 19*2^39, and 9.5 then formats as "10"), and
decoding "10P" gives 10*2^50, an error of 2^49 + 1 — more than half the
P granularity 1024^5 = 2^50 — so the claimed half-granularity round-trip
bound fails at n. -/
theorem claim_C6_counterexample :
    human_readable_size 10696049115004927 = "10P".data ∧
    size_to_bytes ("10P".data) = some 11258999068426240 ∧
    scaleExp 10696049115004927 = 5 ∧
    ¬(∃ v : ℤ, size_to_bytes (human_readable_size 10696049115004927) = some v ∧
        2 * |v - (10696049115004927 : ℤ)| ≤ 1024 ^ scaleExp 10696049115004927) := by
  have hfloor1 : ⌊(10696049115004927 : ℚ) / 1024⌋ = 10445360463871 := by norm_num
  have hlog1 : Nat.log 2 (⌊(10696049115004927 : ℚ) / 1024⌋).toNat = 43 := by
    rw [hfloor1, show ((10445360463871 : ℤ)).toNat = 10445360463871 from rfl]
    exact Nat.log_eq_of_pow_le_of_lt_pow (by norm_num) (by norm_num)
  have hq1 : (1 : ℚ) ≤ (10696049115004927 : ℚ) / 1024 := by norm_num
  have hrhe : roundHalfEven ((10696049115004927 : ℚ) / 1024 * 2 ^ (52 - 43))
      = 5348024557502464 := by
    have hx : (10696049115004927 : ℚ) / 1024 * 2 ^ (52 - 43)
        = 10696049115004927 / 2 := by norm_num
    have hf : ⌊(10696049115004927 : ℚ) / 2⌋ = 5348024557502463 := by norm_num
    rw [hx]
    simp only [roundHalfEven, hf]
    norm_num
  have hv1 : pyDiv1024 ((10696049115004927 : ℚ)) = 10445360463872 := by
    rw [pyDiv1024, floatRound_of_log _ 43 hq1 hlog1 (by norm_num), hrhe]
    norm_num
  have hv2 : pyDiv1024 ((10445360463872 : ℚ)) = 10200547328 := by
    rw [pyDiv1024,
      show (10445360463872 : ℚ) / 1024 = ((10200547328 : ℕ) : ℚ) / 2 ^ 0 from by norm_num,
      floatRound_eq_dyadic 10200547328 0 (by norm_num)]
    norm_num
  have hv3 : pyDiv1024 ((10200547328 : ℚ)) = 9961472 := by
    rw [pyDiv1024,
      show (10200547328 : ℚ) / 1024 = ((9961472 : ℕ) : ℚ) / 2 ^ 0 from by norm_num,
      floatRound_eq_dyadic 9961472 0 (by norm_num)]
    norm_num
  have hv4 : pyDiv1024 ((9961472 : ℚ)) = 9728 := by
    rw [pyDiv1024,
      show (9961472 : ℚ) / 1024 = ((9728 : ℕ) : ℚ) / 2 ^ 0 from by norm_num,
      floatRound_eq_dyadic 9728 0 (by norm_num)]
    norm_num
  have hv5 : pyDiv1024 ((9728 : ℚ)) = (19 : ℚ) / 2 := by
    rw [pyDiv1024,
      show (9728 : ℚ) / 1024 = ((19 : ℕ) : ℚ) / 2 ^ 1 from by norm_num,
      floatRound_eq_dyadic 19 1 (by norm_num)]
    norm_num
  have hr192 : roundHalfEven ((19 : ℚ) / 2) = 10 := by
    have hf : ⌊(19 : ℚ) / 2⌋ = 9 := by norm_num
    simp only [roundHalfEven, hf]
    norm_num
  have henc := encode_P_eq 10696049115004927 (by norm_num)
  push_cast at henc
  rw [hv1, hv2, hv3, hv4, hv5, hr192] at henc
  have hA : human_readable_size 10696049115004927 = "10P".data :=
    henc.trans (by simp [natDigits, digChar])
  have hB : size_to_bytes ("10P".data) = some 11258999068426240 := by
    rw [show ("10P".data) = natDigits 10 ++ ['P'] from by simp [natDigits, digChar],
      size_to_bytes_digits_unit 10 'P' 5 (by norm_num) (by decide)]
    norm_num
  have hC : scaleExp 10696049115004927 = 5 := by decide
  refine ⟨hA, hB, hC, ?_⟩
  rintro ⟨v, hv, hbound⟩
  rw [hA, hB] at hv
  have hveq : v = 11258999068426240 := by
    simpa using hv.symm
  rw [hveq, hC,
    show |(11258999068426240 : ℤ) - 10696049115004927| = 562949953421313 from by decide]
    at hbound
  norm_num at hbound

/-- C7: for a file that passes the filters, a hash failure means no
record is persisted and the loop simply continues with the remaining
files, while a hash success paired with a stat failure still persists a
record carrying the zero-size encoding "0B". -/
theorem claim_C7 (F : Filters) (env : FSEnv) (root file : Str)
    (hinc : F.include_files = [] ∨ joinPath root file ∈ F.include_files)
    (hskip : F.skip_types.any (fun ext => decide (ext <:+ file)) = false) :
    (env.hashF (joinPath root file) = none →
      processFile F env root file = none ∧
      ∀ (fs : List Str) (acc : List FileRecord × Nat),
        processFiles F env root (file :: fs) acc = processFiles F env root fs acc) ∧
    (∀ hsh : Str, env.hashF (joinPath root file) = some hsh → hsh ≠ [] →
      env.sizeF (joinPath root file) = none →
      processFile F env root file = some ⟨joinPath root file, hsh, ['0', 'B']⟩) := by
  constructor
  · intro hh
    have hnone := processFile_hash_none F env root file hh
    refine ⟨hnone, fun fs acc => ?_⟩
    rw [processFiles_cons, hnone]
  · intro hsh hh hne hs
    exact processFile_statfail F env root file hsh hinc hskip hh hne hs

/-- C7 witness: with empty filters, a stat-failing environment persists
the record ("/a/f", "h", "0B"), and a hash-failing environment persists
nothing. -/
theorem claim_C7_witness :
    processFile ⟨[], [], []⟩ envStatFail ("/a".data) ("f".data) =
      some ⟨joinPath ("/a".data) ("f".data), ['h'], ['0', 'B']⟩ ∧
    processFile ⟨[], [], []⟩ envHashFail ("/a".data) ("f".data) = none :=
  ⟨(claim_C7 ⟨[], [], []⟩ envStatFail ("/a".data) ("f".data) (Or.inl rfl)
      (by decide)).2 ['h'] rfl (by decide) rfl,
   ((claim_C7 ⟨[], [], []⟩ envHashFail ("/a".data) ("f".data) (Or.inl rfl)
      (by decide)).1 rfl).1⟩

/-- C8 (amended): index_directory tracks in file_count exactly the
number of records persisted during the run (the figure it prints in its
final total line), but the Python function itself ends without a return
statement, so the operation's return value is None, not that count. -/
theorem claim_C8 (F : Filters) (env : FSEnv) (base : Str) (t : FSTree) :
    (index_directory F env base t).ret = none ∧
    (index_directory F env base t).file_count =
      (index_directory F env base t).inserted.length := by
  refine ⟨rfl, ?_⟩
  simp only [index_directory]
  exact walkTree_count F env base t ([], 0) rfl

/-- C8 counterexample: a run over one admitted file persists one record
and reaches file_count 1, yet the value index_directory returns is None
and not that count. -/
theorem claim_C8_counterexample :
    (index_directory ⟨[], [], []⟩ envStatFail ("/d".data) exTreeOne).file_count = 1 ∧
    (index_directory ⟨[], [], []⟩ envStatFail ("/d".data) exTreeOne).ret ≠
      some (index_directory ⟨[], [], []⟩ envStatFail ("/d".data) exTreeOne).file_count := by
  decide

/-- C9: with an empty include set, if the skip-extension set contains
the empty string then every file name ends with it, so every file is
rejected and an index run inserts no record and counts zero. -/
theorem claim_C9 (F : Filters) (env : FSEnv) (base : Str) (t : FSTree)
    (hinc : F.include_files = []) (hskip : ([] : Str) ∈ F.skip_types) :
    (index_directory F env base t).inserted = [] ∧
    (index_directory F env base t).file_count = 0 := by
  have hP : ∀ root file, processFile F env root file = none :=
    fun root file => processFile_skip_empty F env root file hskip
  simp only [index_directory]
  rw [walkTree_noins F env hP base t ([], 0)]
  exact ⟨rfl, rfl⟩

/-- C9 witness: skip_types containing the empty string makes a run over
a directory holding a file index nothing. -/
theorem claim_C9_witness :
    (index_directory ⟨[([] : Str)], [], []⟩ envOk ("/d".data) exTreeOne).inserted = [] ∧
    (index_directory ⟨[([] : Str)], [], []⟩ envOk ("/d".data) exTreeOne).file_count = 0 :=
  claim_C9 ⟨[([] : Str)], [], []⟩ envOk ("/d".data) exTreeOne rfl (by decide)

/-- C10: a minBytes threshold of 0 is falsy in the query's truthiness
test, so find_duplicates with some 0 returns exactly the groups of the
threshold-free query. -/
theorem claim_C10 (records : List FileRecord) :
    find_duplicates records (some 0) = find_duplicates records none := rfl
